import Mathlib

/-!
Verification of the catalog rendering core (catalog/utils.py and catalog/views.py).

Strings are embedded as Lean `String` / `List Char`.  Python's
`unicodedata.normalize('NFD', ...)` is modelled by a per-character
decomposition table `nfdCh` restricted to the accented Latin characters
this development needs (ASCII characters decompose to themselves), and
`str.lower()` is modelled by `pyLowerCh` on ASCII letters plus the same
accented letters.  All definitions are executable.
-/

/-- Combining acute accent U+0301, produced by NFD decomposition. -/
def combiningAcute : Char := Char.ofNat 769

/-- Combining tilde U+0303. -/
def combiningTilde : Char := Char.ofNat 771

/-- Combining diaeresis U+0308. -/
def combiningDiaeresis : Char := Char.ofNat 776

/-- NFD decomposition of one character (`unicodedata.normalize('NFD', ...)`),
restricted to the accented Latin letters used by this repository; every other
character decomposes to itself. -/
def nfdCh (c : Char) : List Char :=
  if c = 'á' then ['a', combiningAcute]
  else if c = 'é' then ['e', combiningAcute]
  else if c = 'í' then ['i', combiningAcute]
  else if c = 'ó' then ['o', combiningAcute]
  else if c = 'ú' then ['u', combiningAcute]
  else if c = 'Á' then ['A', combiningAcute]
  else if c = 'É' then ['E', combiningAcute]
  else if c = 'Í' then ['I', combiningAcute]
  else if c = 'Ó' then ['O', combiningAcute]
  else if c = 'Ú' then ['U', combiningAcute]
  else if c = 'ñ' then ['n', combiningTilde]
  else if c = 'Ñ' then ['N', combiningTilde]
  else if c = 'ü' then ['u', combiningDiaeresis]
  else if c = 'Ü' then ['U', combiningDiaeresis]
  else if c = 'ŕ' then ['r', combiningAcute]
  else if c = 'Ŕ' then ['R', combiningAcute]
  else [c]

/-- Python `str.lower()` on one character: ASCII upper-case letters map to
lower case, the accented upper-case letters of `nfdCh` map to their accented
lower-case forms, everything else is unchanged. -/
def pyLowerCh (c : Char) : Char :=
  if 'A' ≤ c ∧ c ≤ 'Z' then Char.ofNat (c.toNat + 32)
  else if c = 'Á' then 'á'
  else if c = 'É' then 'é'
  else if c = 'Í' then 'í'
  else if c = 'Ó' then 'ó'
  else if c = 'Ú' then 'ú'
  else if c = 'Ñ' then 'ñ'
  else if c = 'Ü' then 'ü'
  else if c = 'Ŕ' then 'ŕ'
  else c

/-- Python `str.lower()` over a character list. -/
def pyLowerL (s : List Char) : List Char := s.map pyLowerCh

/-- utils.normalizar_texto: NFD-decompose and drop every non-ASCII code point
(`.encode('ascii', 'ignore')`). -/
def normalizar_texto (s : List Char) : List Char :=
  ((s.map nfdCh).flatten).filter (fun c => decide (c.toNat ≤ 127))

/-- Does `hay` start with `needle`?  (Helper for Python's substring test.) -/
def listStartsWith : List Char → List Char → Bool
  | [], _ => true
  | _ :: _, [] => false
  | a :: as, b :: bs => a == b && listStartsWith as bs

/-- Python's `needle in hay` contiguous-substring test. -/
def substrB (needle : List Char) : List Char → Bool
  | [] => needle.isEmpty
  | c :: cs => listStartsWith needle (c :: cs) || substrB needle cs

/-- utils.categories: the category dictionary, in its declared definition
order (Python dicts iterate in insertion order). -/
def categories : List (String × List String) :=
  [("Camiseta Oversize", ["Camiseta", "Oversize"]),
   ("Camiseta Estampado Boxy Fit Original", ["Camiseta", "Boxy", "Fit", "Original"]),
   ("Camiseta Estampado Boxy Fit Premium", ["Camiseta", "Boxy", "Fit", "Premium"]),
   ("Jogger", ["Jogger"]),
   ("Hoodie Oversize", ["Hoodie", "Oversize Fit"]),
   ("Hoodie Oversize con Cierre", ["Hoodie Oversize", "con Cierre"]),
   ("Pantaloneta", ["Pantaloneta"]),
   ("Hoodie Relaxed Fit", ["Hoodie", "Relaxed"]),
   ("Camiseta Boxy Polo", ["Camiseta", "Boxy", "Polo"]),
   ("Colección Exclusiva", ["Twofold"]),
   ("Pantalones", ["Pantalon"])]

/-- utils._normalize_categories applied to utils.categories: every keyword is
lower-cased and diacritic-stripped once, category order is preserved. -/
def categories_normalized : List (String × List (List Char)) :=
  categories.map (fun ck => (ck.1, ck.2.map (fun kw => normalizar_texto (pyLowerL kw.data))))

/-- The `for category, keywords in categories_normalized.items():` loop of
utils.categorize_product: return the first category whose normalized keywords
are all substrings of the normalized name, else the sentinel. -/
def categorize_go : List (String × List (List Char)) → List Char → String
  | [], _ => "Sin categoría"
  | (cat, kws) :: rest, nn =>
      if kws.all (fun kw => substrB kw nn) then cat else categorize_go rest nn

/-- utils.categorize_product. -/
def categorize_product (name : String) : String :=
  categorize_go categories_normalized (normalizar_texto (pyLowerL name.data))

/-- The classifier as the specification words it: the first category, in
declared definition order, all of whose pre-normalized keywords are substrings
of the normalized lower-cased name; the sentinel when none matches. -/
def classifySpec (name : String) : String :=
  match categories_normalized.find?
      (fun ck => ck.2.all (fun kw => substrB kw (normalizar_texto (pyLowerL name.data)))) with
  | some ck => ck.1
  | none => "Sin categoría"

/-- views.SIZE_ORDER: the canonical garment-size scale. -/
def SIZE_ORDER : List String := ["XXS", "XS", "S", "M", "L", "XL", "XXL", "XXXL"]

/-- Position of a label in the canonical scale (views: `order_map[s]`; only
applied to labels that are in the scale). -/
def sizePos (s : String) : Nat := SIZE_ORDER.indexOf s

/-- Comparison used for known labels: canonical position, ascending. -/
def knownLE (a b : String) : Prop := sizePos a ≤ sizePos b

instance : DecidableRel knownLE := fun a b => Nat.decLe _ _

/-- views._sort_sizes: known labels sorted by canonical position, then the
remaining labels sorted lexicographically. -/
def sort_sizes (sizes : List String) : List String :=
  (List.insertionSort knownLE (sizes.filter (fun s => decide (s ∈ SIZE_ORDER)))) ++
  (List.insertionSort (· ≤ ·) (sizes.filter (fun s => decide (s ∉ SIZE_ORDER))))

/-- The ordering the specification describes for the output of the size
ranker: canonical labels first, by canonical position; non-canonical labels
last, lexicographically. -/
def sizeSpecLE (a b : String) : Prop :=
  (a ∈ SIZE_ORDER ∧ b ∈ SIZE_ORDER ∧ sizePos a ≤ sizePos b) ∨
  (a ∈ SIZE_ORDER ∧ b ∉ SIZE_ORDER) ∨
  (a ∉ SIZE_ORDER ∧ b ∉ SIZE_ORDER ∧ a ≤ b)

/-- Split a character list at its last dot: `splitLastDot s = some (b, e)`
when `s = b ++ '.' :: e` and `e` is dot-free, `none` when `s` has no dot.
This models both Python's `url.rsplit('.', 1)` and the `$`-anchored regex
suffix matching of utils.py. -/
def splitLastDot : List Char → Option (List Char × List Char)
  | [] => none
  | c :: cs =>
    match splitLastDot cs with
    | some (b, e) => some (c :: b, e)
    | none => if c = '.' then some ([], cs) else none

/-- ASCII digit test (`\d` in the compiled patterns). -/
def isDigitC (c : Char) : Bool := '0' ≤ c && c ≤ '9'

/-- Longest digit segment at the front of a list, with the remainder. -/
def spanDigits : List Char → List Char × List Char
  | [] => ([], [])
  | c :: cs =>
    if isDigitC c then
      let p := spanDigits cs
      (c :: p.1, p.2)
    else ([], c :: cs)

/-- The recognized image extensions of utils.py, lower case. -/
def EXTS : List (List Char) := ["jpg".data, "jpeg".data, "png".data, "webp".data]

/-- Case folding for extension comparison (re.IGNORECASE). -/
def lowerL (s : List Char) : List Char := s.map pyLowerCh

/-- utils._dimension_pattern.search: does the URL end in
`-<digits>x<digits>.<ext>` with a recognized extension, case-insensitively?
Checked from the end of the string: the segment after the last dot must be a
recognized extension, preceded by a nonempty digit run, an `x` (or `X`), a
nonempty digit run, and a `-`. -/
def hasDimSuffix (s : List Char) : Bool :=
  match splitLastDot s with
  | none => false
  | some (b, e) =>
    decide (lowerL e ∈ EXTS) &&
    (match spanDigits b.reverse with
     | (d2, rest) =>
       match rest with
       | [] => false
       | x :: r2 =>
         decide (d2 ≠ []) && decide (x = 'x' ∨ x = 'X') &&
         (match spanDigits r2 with
          | (d1, r3) => decide (d1 ≠ []) && decide (r3.head? = some '-')))

/-- The literal `-1070x1536.` inserted by utils.get_wordpress_optimized_url
(the f-string `f"{base_url}-1070x1536.{extension}"`). -/
def dimToken : List Char := ['-', '1', '0', '7', '0', 'x', '1', '5', '3', '6', '.']

/-- utils.get_wordpress_optimized_url: keep an already-dimensioned URL as is;
otherwise, when the URL has a recognized extension, insert `-1070x1536` before
it; otherwise return the URL unchanged. -/
def get_wordpress_optimized_url (s : List Char) : List Char :=
  if hasDimSuffix s then s
  else
    match splitLastDot s with
    | none => s
    | some (b, e) => if lowerL e ∈ EXTS then b ++ dimToken ++ e else s

/-- The specification's "already-sized suffix pattern": some decomposition
`p ++ "-" ++ digits ++ "x" ++ digits ++ "." ++ ext` with both digit runs
nonempty and a recognized extension, case-insensitive in the `x` and the
extension. -/
def sizedSpec (s : List Char) : Prop :=
  ∃ p d1 x d2 e, s = p ++ '-' :: (d1 ++ x :: (d2 ++ '.' :: e)) ∧
    d1 ≠ [] ∧ d2 ≠ [] ∧
    (∀ c ∈ d1, isDigitC c = true) ∧ (∀ c ∈ d2, isDigitC c = true) ∧
    (x = 'x' ∨ x = 'X') ∧ lowerL e ∈ EXTS

/-- A PIL image as observed by this code: pixel dimensions plus the mode and
fill colour used when the code constructs one (`Image.new`); fetched images
carry whatever values the origin produced. -/
structure PILImage where
  mode : String
  width : Nat
  height : Nat
  fill : String
deriving DecidableEq, Repr

/-- `Image.new('RGB', (1070, 1536), 'white')`: the solid-colour fallback. -/
def placeholderImage : PILImage := ⟨"RGB", 1070, 1536, "white"⟩

/-- String-level wrapper of the optimized-URL derivation. -/
def get_wordpress_optimized_urlS (s : String) : String :=
  ⟨get_wordpress_optimized_url s.data⟩

/-- The `for attempt_url in urls_to_try:` loop of utils.download_image: first
successful fetch wins, the placeholder is returned when every attempt fails.
`fetch u = none` models any requests/PIL exception (HTTP error, timeout,
decode failure) for URL `u`. -/
def tryUrls (fetch : String → Option PILImage) : List String → PILImage
  | [] => placeholderImage
  | u :: rest =>
    match fetch u with
    | some img => img
    | none => tryUrls fetch rest

/-- utils.download_image: `urls_to_try = [get_wordpress_optimized_url(url), url]`. -/
def download_image (fetch : String → Option PILImage) (url : String) : PILImage :=
  tryUrls fetch [get_wordpress_optimized_urlS url, url]

/-- utils.Product (the dataclass); `Decimal` is modelled as `Rat`. -/
structure Product where
  sku : String
  name : String
  color : String
  size : String
  regular_price : Rat
  stock : Int
  thumbnail_url : String
  stock_loc_294 : String
  stock_loc_295 : String
deriving DecidableEq, Repr

/-- The deduplicated non-empty thumbnail URL set of a render job
(`{p.thumbnail_url for p in products if p.thumbnail_url}` — a Python set, so
only the membership matters). -/
def uniqueThumbnailUrls (products : List Product) : List String :=
  ((products.map (fun p => p.thumbnail_url)).filter (fun u => decide (u ≠ ""))).dedup

/-- views._prefetch_images: one `download_image` resolution per distinct
non-empty thumbnail URL, collected into a URL-keyed mapping.  The worker pool
only affects completion order, which is irrelevant to the resulting map. -/
def _prefetch_images (fetch : String → Option PILImage) (products : List Product) :
    List (String × PILImage) :=
  (uniqueThumbnailUrls products).map (fun u => (u, download_image fetch u))

/-- A small render job used to witness the prefetch claim: a duplicated URL,
a second URL, and an empty thumbnail. -/
def sampleProducts : List Product :=
  [⟨"s1", "Camiseta Oversize Azul", "Azul", "M", 10, 1, "u1", "0", "0"⟩,
   ⟨"s2", "Camiseta Oversize Roja", "Roja", "M", 10, 1, "u1", "0", "0"⟩,
   ⟨"s3", "Jogger Negro", "Negro", "L", 10, 1, "u2", "0", "0"⟩,
   ⟨"s4", "Pantaloneta Gris", "Gris", "S", 10, 1, "", "0", "0"⟩]

/-- The per-product layout decisions of the `for i, product in
enumerate(products):` loop in views.generate_pdf_content: whether
`c.showPage()` is issued before drawing product `i`
(`page_position == 0 and i != 0`), and the grid cell
(`row = page_position // 2`, `col = page_position % 2`).  The float page
coordinates derived from row and col are presentation-only and are not
modelled. -/
def productPlacements (n : Nat) : List (Bool × Nat × Nat) :=
  (List.range n).map (fun i =>
    (decide (i % 6 = 0 ∧ i ≠ 0), (i % 6) / 2, (i % 6) % 2))

/-- Indices at which a new page is started. -/
def pageBreakIndices (n : Nat) : List Nat :=
  (List.range n).filter (fun i => decide (i % 6 = 0 ∧ i ≠ 0))

/-- Number of pages the canvas emits for `n` products (one initial page plus
one per page break). -/
def pageCount (n : Nat) : Nat :=
  1 + (productPlacements n).countP (fun pl => pl.1)

/-- How many products land on each page, in order. -/
def pageSizesAux : List (Bool × Nat × Nat) → List Nat → List Nat
  | [], acc => acc.reverse
  | pl :: rest, acc =>
    if pl.1 then pageSizesAux rest (1 :: acc)
    else
      match acc with
      | [] => pageSizesAux rest [1]
      | k :: acc' => pageSizesAux rest ((k + 1) :: acc')

/-- Page occupancy of an `n`-product render. -/
def pageSizes (n : Nat) : List Nat := pageSizesAux (productPlacements n) []

/-- The ephemeral-storage state seen by views.generate_pdfs and
views.download_pdf: the PDF files on disk (`PDF_TEMP_DIR`, keyed by the
uuid4 token) and the caller's session mapping from `pdf_<category>_<size>`
keys to tokens.  File bytes are modelled as `List Nat`. -/
structure StoreState where
  files : List (String × List Nat)
  session : List (String × String)
deriving DecidableEq, Repr

/-- First-binding lookup in an association list (newest bindings are put at
the front, which models overwriting the session key and writing a fresh
file). -/
def lookupA {β : Type} (l : List (String × β)) (k : String) : Option β :=
  (l.find? (fun p => p.1 == k)).map (fun p => p.2)

/-- Remove the first binding of `k`. -/
def eraseA {β : Type} (l : List (String × β)) (k : String) : List (String × β) :=
  l.eraseP (fun p => p.1 == k)

/-- The persistence step of views.generate_pdfs for one size: write the
rendered bytes to a fresh `uuid4` file and bind the session key to that
token. -/
def put_pdf (st : StoreState) (key tok : String) (content : List Nat) : StoreState :=
  { files := (tok, content) :: st.files, session := (key, tok) :: st.session }

/-- views.download_pdf: look up the session token for the key, read the file
if it exists, delete the file and the session binding, and return the bytes;
any miss is the 404 outcome, modelled as `none`. -/
def download_pdf (st : StoreState) (key : String) : Option (List Nat) × StoreState :=
  match lookupA st.session key with
  | none => (none, st)
  | some tok =>
    match lookupA st.files tok with
    | none => (none, st)
    | some bytes =>
      (some bytes, { files := eraseA st.files tok, session := eraseA st.session key })

/-- One caller of views.get_cached_products, reduced to its observable
program counter and return value.  pc 0: about to run `cache.get`; pc 1:
observed a miss, about to run `fetch_wordpress_products()`; pc 2: fetched,
about to run `cache.set`; pc 3: returned. -/
structure CacheThread where
  pc : Nat
  res : Option Nat
deriving DecidableEq, Repr

/-- Shared state of the cache model: the cache cell (`None` = miss or
expired entry), the number of external fetches performed so far, and the
callers.  The product list returned by the source is abstracted to a
number `src`; the timestamp cache entry does not affect this claim and is
not modelled. -/
structure CacheState where
  cache : Option Nat
  count : Nat
  threads : List CacheThread
deriving DecidableEq, Repr

/-- One atomic interleaving step of views.get_cached_products executed by
thread `i`: the `cache.get`, the fetch and the `cache.set` are separate
atomic actions, exactly as in the source, where no lock covers the
check-then-fetch-then-set sequence. -/
def cacheStep (src : Nat) (s : CacheState) (i : Nat) : CacheState :=
  match s.threads[i]? with
  | none => s
  | some t =>
    if t.pc = 0 then
      match s.cache with
      | some v => { s with threads := s.threads.set i { pc := 3, res := some v } }
      | none => { s with threads := s.threads.set i { pc := 1, res := t.res } }
    else if t.pc = 1 then
      { cache := s.cache, count := s.count + 1,
        threads := s.threads.set i { pc := 2, res := some src } }
    else if t.pc = 2 then
      { cache := some src, count := s.count,
        threads := s.threads.set i { pc := 3, res := t.res } }
    else s

/-- Run a schedule (a list of thread indices) from a state. -/
def cacheRun (src : Nat) (sched : List Nat) (s : CacheState) : CacheState :=
  sched.foldl (cacheStep src) s

/-- `m` concurrent get calls arriving while the cache is empty or expired. -/
def cacheInit (m : Nat) : CacheState :=
  { cache := none, count := 0, threads := List.replicate m { pc := 0, res := none } }

/-- Invariant of the cache model: the cache only ever holds the source
value, a published cache implies a fetch happened, threads past the fetch
hold the source value, and the fetch count never exceeds the number of
threads that have progressed past the fetch. -/
def CacheInv (src : Nat) (s : CacheState) : Prop :=
  (s.cache = none ∨ s.cache = some src) ∧
  (s.cache = some src → 1 ≤ s.count) ∧
  (∀ t ∈ s.threads, 2 ≤ t.pc → (t.res = some src ∧ 1 ≤ s.count)) ∧
  s.count ≤ s.threads.countP (fun t => decide (2 ≤ t.pc))

theorem categorize_go_eq_find? (l : List (String × List (List Char))) (nn : List Char) :
    categorize_go l nn =
      match l.find? (fun ck => ck.2.all (fun kw => substrB kw nn)) with
      | some ck => ck.1
      | none => "Sin categoría" := by
  induction l with
  | nil => rfl
  | cons hd tl ih =>
    obtain ⟨cat, kws⟩ := hd
    by_cases h : (kws.all (fun kw => substrB kw nn)) = true
    · simp [categorize_go, List.find?, h]
    · simp only [Bool.not_eq_true] at h
      simp [categorize_go, List.find?, h, ih]

/-- Claim C1: for every product name, `categorize_product` returns the first
category in declared definition order all of whose pre-normalized keywords are
substrings of the normalized lower-cased name, and the sentinel
"Sin categoría" otherwise; moreover a non-sentinel answer always comes with a
declared keyword list all of whose members are substrings of the normalized
name. -/
theorem C1_classifier_first_match (name : String) :
    categorize_product name = classifySpec name ∧
    (categorize_product name ≠ "Sin categoría" →
      ∃ kws, (categorize_product name, kws) ∈ categories_normalized ∧
        ∀ kw ∈ kws, substrB kw (normalizar_texto (pyLowerL name.data)) = true) := by
  have hmain : categorize_product name = classifySpec name := by
    unfold categorize_product classifySpec
    exact categorize_go_eq_find? _ _
  refine ⟨hmain, ?_⟩
  intro hne
  rw [hmain] at hne ⊢
  unfold classifySpec at hne ⊢
  rcases hfind : categories_normalized.find?
      (fun ck => ck.2.all (fun kw => substrB kw (normalizar_texto (pyLowerL name.data)))) with
    _ | ck
  · rw [hfind] at hne; simp at hne
  · rw [hfind]
    refine ⟨ck.2, ?_, ?_⟩
    · simpa using List.mem_of_find?_eq_some hfind
    · have hp := List.find?_some hfind
      simp only [List.all_eq_true] at hp
      exact hp

/-- Witness for C1 at a concrete product name. -/
theorem C1_classifier_first_match_witness :
    ∃ kws, (categorize_product "Camiseta Oversize Negra", kws) ∈ categories_normalized ∧
      ∀ kw ∈ kws,
        substrB kw (normalizar_texto (pyLowerL ("Camiseta Oversize Negra").data)) = true :=
  (C1_classifier_first_match "Camiseta Oversize Negra").2 (by decide)

/-- Claim C9: classification is invariant under diacritics: any two names with
the same diacritic-stripped lower-cased form classify identically, and in
particular "Camiseta Oveŕsizé" classifies exactly like "Camiseta Oversize". -/
theorem C9_classifier_diacritic_invariant :
    (∀ a b : String,
        normalizar_texto (pyLowerL a.data) = normalizar_texto (pyLowerL b.data) →
        categorize_product a = categorize_product b) ∧
    categorize_product "Camiseta Oveŕsizé" = categorize_product "Camiseta Oversize" ∧
    categorize_product "Camiseta Oveŕsizé" = "Camiseta Oversize" := by
  refine ⟨?_, by decide, by decide⟩
  intro a b h
  unfold categorize_product
  rw [h]

/-- Witness for C9: the general invariance applied to the two concrete names
of the claim. -/
theorem C9_classifier_diacritic_invariant_witness :
    categorize_product "Camiseta Oveŕsizé" = categorize_product "Camiseta Oversize" :=
  C9_classifier_diacritic_invariant.1 "Camiseta Oveŕsizé" "Camiseta Oversize" (by decide)

theorem pairwise_of_forall_mem_pairwise {α : Type} {P : α → Prop} {r : α → α → Prop}
    {l : List α} (hall : ∀ x ∈ l, P x) (hp : l.Pairwise r) :
    l.Pairwise (fun a b => P a ∧ P b ∧ r a b) := by
  induction l with
  | nil => exact List.Pairwise.nil
  | cons hd tl ih =>
    rcases hp with _ | ⟨hhd, htl⟩
    refine List.Pairwise.cons ?_ (ih (fun x hx => hall x (List.mem_cons_of_mem _ hx)) htl)
    intro b hb
    exact ⟨hall hd (List.mem_cons_self _ _), hall b (List.mem_cons_of_mem _ hb), hhd b hb⟩

/-- Claim C7: `sort_sizes` returns a permutation of its input in which every
canonical label precedes every non-canonical one, canonical labels are in
canonical-position order, non-canonical labels are in lexicographic order,
and in particular sort_sizes ["L", "XS", "Q"] = ["XS", "L", "Q"]. -/
theorem C7_size_ranker (sizes : List String) :
    (sort_sizes sizes).Perm sizes ∧
    (sort_sizes sizes).Pairwise sizeSpecLE ∧
    sort_sizes ["L", "XS", "Q"] = ["XS", "L", "Q"] := by
  haveI : IsTotal String knownLE := ⟨fun a b => Nat.le_total _ _⟩
  haveI : IsTrans String knownLE := ⟨fun _ _ _ h h' => Nat.le_trans h h'⟩
  refine ⟨?_, ?_, by decide⟩
  · have h1 := List.perm_insertionSort knownLE
      (sizes.filter (fun s => decide (s ∈ SIZE_ORDER)))
    have h2 := List.perm_insertionSort (fun a b : String => a ≤ b)
      (sizes.filter (fun s => decide (s ∉ SIZE_ORDER)))
    have h3 : (sizes.filter (fun s => decide (s ∈ SIZE_ORDER)) ++
        sizes.filter (fun s => decide (s ∉ SIZE_ORDER))).Perm sizes := by
      have := List.filter_append_perm (fun s => decide (s ∈ SIZE_ORDER)) sizes
      have hfun : (fun s => !(decide (s ∈ SIZE_ORDER))) =
          (fun s : String => decide (s ∉ SIZE_ORDER)) := by
        funext s; simp [decide_not]
      rw [hfun] at this
      exact this
    exact ((h1.append h2).trans h3)
  · rw [sort_sizes, List.pairwise_append]
    have hmem1 : ∀ x ∈ List.insertionSort knownLE
        (sizes.filter (fun s => decide (s ∈ SIZE_ORDER))), x ∈ SIZE_ORDER := by
      intro x hx
      have := (List.perm_insertionSort knownLE _).mem_iff.mp hx
      have := List.mem_filter.mp this
      simpa using this.2
    have hmem2 : ∀ x ∈ List.insertionSort (fun a b : String => a ≤ b)
        (sizes.filter (fun s => decide (s ∉ SIZE_ORDER))), x ∉ SIZE_ORDER := by
      intro x hx
      have := (List.perm_insertionSort _ _).mem_iff.mp hx
      have := List.mem_filter.mp this
      simpa using this.2
    refine ⟨?_, ?_, ?_⟩
    · have hs := List.sorted_insertionSort knownLE
        (sizes.filter (fun s => decide (s ∈ SIZE_ORDER)))
      have := pairwise_of_forall_mem_pairwise hmem1 hs
      exact this.imp (fun h => Or.inl ⟨h.1, h.2.1, h.2.2⟩)
    · have hs := List.sorted_insertionSort (fun a b : String => a ≤ b)
        (sizes.filter (fun s => decide (s ∉ SIZE_ORDER)))
      have := pairwise_of_forall_mem_pairwise hmem2 hs
      exact this.imp (fun h => Or.inr (Or.inr ⟨h.1, h.2.1, h.2.2⟩))
    · intro a ha b hb
      exact Or.inr (Or.inl ⟨hmem1 a ha, hmem2 b hb⟩)

theorem splitLastDot_none_iff (l : List Char) : splitLastDot l = none ↔ '.' ∉ l := by
  induction l with
  | nil => simp [splitLastDot]
  | cons c cs ih =>
    simp only [splitLastDot]
    rcases h : splitLastDot cs with _ | be
    · rw [h] at ih
      by_cases hc : c = '.'
      · simp [hc]
      · simp [hc, ih.mp rfl, Ne.symm hc]
    · obtain ⟨b, e⟩ := be
      simp only [List.mem_cons]
      constructor
      · intro habs; exact absurd habs (by simp)
      · intro habs
        exact absurd (ih.mpr (fun hm => habs (Or.inr hm))) (by simp [h])

theorem splitLastDot_sound (l b e : List Char) (h : splitLastDot l = some (b, e)) :
    l = b ++ '.' :: e ∧ '.' ∉ e := by
  induction l generalizing b e with
  | nil => simp [splitLastDot] at h
  | cons c cs ih =>
    rcases hcs : splitLastDot cs with _ | be
    · by_cases hc : c = '.'
      · subst hc
        have hred : splitLastDot ('.' :: cs) = some ([], cs) := by
          simp [splitLastDot, hcs]
        rw [hred] at h
        injection h with h1
        injection h1 with hb he
        subst hb; subst he
        exact ⟨by simp, (splitLastDot_none_iff cs).mp hcs⟩
      · have hred : splitLastDot (c :: cs) = none := by
          simp [splitLastDot, hcs, hc]
        rw [hred] at h
        exact absurd h (by simp)
    · obtain ⟨b', e'⟩ := be
      have hred : splitLastDot (c :: cs) = some (c :: b', e') := by
        simp [splitLastDot, hcs]
      rw [hred] at h
      injection h with h1
      injection h1 with hb he
      subst hb; subst he
      obtain ⟨hcs', hne⟩ := ih b' e' hcs
      exact ⟨by rw [hcs']; simp, hne⟩

theorem splitLastDot_append (b e : List Char) (he : '.' ∉ e) :
    splitLastDot (b ++ '.' :: e) = some (b, e) := by
  induction b with
  | nil => simp [splitLastDot, (splitLastDot_none_iff e).mpr he]
  | cons c cs ih => simp [splitLastDot, ih]

theorem spanDigits_sound (l : List Char) :
    l = (spanDigits l).1 ++ (spanDigits l).2 ∧ ∀ c ∈ (spanDigits l).1, isDigitC c = true := by
  induction l with
  | nil => simp [spanDigits]
  | cons c cs ih =>
    by_cases hc : isDigitC c = true
    · simp only [spanDigits, if_pos hc]
      refine ⟨by rw [List.cons_append, ← ih.1], ?_⟩
      intro d hd
      rcases List.mem_cons.mp hd with h | h
      · subst h; exact hc
      · exact ih.2 d h
    · simp [spanDigits, hc]

theorem spanDigits_append (a : List Char) (x : Char) (r : List Char)
    (ha : ∀ c ∈ a, isDigitC c = true) (hx : isDigitC x = false) :
    spanDigits (a ++ x :: r) = (a, x :: r) := by
  induction a with
  | nil => simp [spanDigits, hx]
  | cons c cs ih =>
    have hc : isDigitC c = true := ha c (List.mem_cons_self _ _)
    have ih' := ih (fun d hd => ha d (List.mem_cons_of_mem _ hd))
    simp [spanDigits, hc, ih']

theorem dot_not_mem_of_ext (e : List Char) (he : lowerL e ∈ EXTS) : '.' ∉ e := by
  intro hdot
  have hmem : pyLowerCh '.' ∈ lowerL e := List.mem_map_of_mem _ hdot
  have hpy : pyLowerCh '.' = '.' := by decide
  rw [hpy] at hmem
  simp only [EXTS, List.mem_cons, List.not_mem_nil, or_false] at he
  rcases he with h | h | h | h <;> rw [h] at hmem <;> revert hmem <;> decide

/-- The executable already-sized check is exactly the specification's
already-sized suffix pattern. -/
theorem hasDimSuffix_iff (s : List Char) : hasDimSuffix s = true ↔ sizedSpec s := by
  constructor
  · intro h
    unfold hasDimSuffix at h
    rcases hsplit : splitLastDot s with _ | be
    · simp [hsplit] at h
    · obtain ⟨b, e⟩ := be
      rcases h2 : spanDigits b.reverse with ⟨d2, _ | ⟨x, r2⟩⟩
      · simp [hsplit, h2] at h
      · rcases h3 : spanDigits r2 with ⟨d1, r3⟩
        simp only [hsplit, h2, h3, Bool.and_eq_true, decide_eq_true_eq] at h
        obtain ⟨hext, ⟨hd2ne, hxc⟩, hd1ne, hhead⟩ := h
        rcases hr3 : r3 with _ | ⟨dash, r4⟩
        · rw [hr3] at hhead; simp at hhead
        · rw [hr3] at hhead
          simp only [List.head?_cons, Option.some.injEq] at hhead
          subst hhead
          obtain ⟨hb, _⟩ := splitLastDot_sound s b e hsplit
          obtain ⟨hbrev, hd2dig⟩ := spanDigits_sound b.reverse
          rw [h2] at hbrev hd2dig
          obtain ⟨hr2, hd1dig⟩ := spanDigits_sound r2
          rw [h3] at hr2 hd1dig
          simp only at hbrev hd2dig hr2 hd1dig
          rw [hr3] at hr2
          refine ⟨r4.reverse, d1.reverse, x, d2.reverse, e, ?_, ?_, ?_, ?_, ?_, ?_, hext⟩
          · have hbeq : b = r4.reverse ++ '-' :: (d1.reverse ++ x :: d2.reverse) := by
              have : b.reverse = d2 ++ x :: (d1 ++ '-' :: r4) := by
                rw [hbrev, hr2]
              have hrr := congrArg List.reverse this
              simp only [List.reverse_reverse, List.reverse_append, List.reverse_cons,
                List.append_assoc] at hrr
              rw [hrr]; simp
            rw [hb, hbeq]; simp
          · simpa using hd1ne
          · simpa using hd2ne
          · intro c hc; exact hd1dig c (List.mem_reverse.mp hc)
          · intro c hc; exact hd2dig c (List.mem_reverse.mp hc)
          · exact hxc
  · rintro ⟨p, d1, x, d2, e, hs, hd1ne, hd2ne, hd1dig, hd2dig, hx, hext⟩
    have hxnd : isDigitC x = false := by
      rcases hx with h | h <;> subst h <;> decide
    have hdot : '.' ∉ e := dot_not_mem_of_ext e hext
    have hsB : s = (p ++ '-' :: (d1 ++ x :: d2)) ++ '.' :: e := by
      rw [hs]; simp
    have hsplit : splitLastDot s = some (p ++ '-' :: (d1 ++ x :: d2), e) := by
      rw [hsB]; exact splitLastDot_append _ _ hdot
    have hbrev : (p ++ '-' :: (d1 ++ x :: d2)).reverse =
        d2.reverse ++ x :: (d1.reverse ++ '-' :: p.reverse) := by
      simp [List.reverse_append, List.reverse_cons, List.append_assoc]
    have hspan1 : spanDigits ((p ++ '-' :: (d1 ++ x :: d2)).reverse) =
        (d2.reverse, x :: (d1.reverse ++ '-' :: p.reverse)) := by
      rw [hbrev]
      exact spanDigits_append _ _ _ (fun c hc => hd2dig c (List.mem_reverse.mp hc)) hxnd
    have hspan2 : spanDigits (d1.reverse ++ '-' :: p.reverse) =
        (d1.reverse, '-' :: p.reverse) := by
      exact spanDigits_append _ _ _ (fun c hc => hd1dig c (List.mem_reverse.mp hc)) (by decide)
    unfold hasDimSuffix
    simp only [hsplit, hspan1, hspan2, Bool.and_eq_true, decide_eq_true_eq]
    refine ⟨hext, ⟨by simpa using hd2ne, hx⟩, by simpa using hd1ne, by simp⟩

/-- Claim C8: a URL already matching the already-sized suffix pattern is
returned unchanged by the optimized-URL derivation (so the resolver's fetch
target is that exact URL); any other URL with a recognized extension gets the
fixed `-1070x1536` dimension token inserted before its extension. -/
theorem C8_optimized_url_derivation (url : List Char) :
    (sizedSpec url → get_wordpress_optimized_url url = url) ∧
    (¬ sizedSpec url → ∀ b e, url = b ++ '.' :: e → '.' ∉ e → lowerL e ∈ EXTS →
      get_wordpress_optimized_url url = b ++ dimToken ++ e) := by
  constructor
  · intro hs
    have hd : hasDimSuffix url = true := (hasDimSuffix_iff url).mpr hs
    simp [get_wordpress_optimized_url, hd]
  · intro hns b e hurl hdot hext
    have hd : hasDimSuffix url = false := by
      rcases hb : hasDimSuffix url
      · rfl
      · exact absurd ((hasDimSuffix_iff url).mp hb) hns
    have hsplit : splitLastDot url = some (b, e) := by
      rw [hurl]; exact splitLastDot_append b e hdot
    simp [get_wordpress_optimized_url, hd, hsplit, hext]

/-- Witness for C8: a URL that already carries `-1070x1536` is kept verbatim,
and one without a dimension token gets it inserted before the extension. -/
theorem C8_optimized_url_derivation_witness :
    get_wordpress_optimized_url ("photo-1070x1536.jpg".data) = "photo-1070x1536.jpg".data ∧
    get_wordpress_optimized_url ("photo.jpg".data) = "photo".data ++ dimToken ++ "jpg".data := by
  constructor
  · exact (C8_optimized_url_derivation _).1
      ⟨"photo".data, "1070".data, 'x', "1536".data, "jpg".data,
        by decide, by decide, by decide, by decide, by decide, by decide, by decide⟩
  · refine (C8_optimized_url_derivation _).2 ?_ "photo".data "jpg".data
      (by decide) (by decide) (by decide)
    intro hs
    exact absurd ((hasDimSuffix_iff _).mpr hs) (by decide)

/-- Claim C10: the optimized-URL derivation is idempotent. -/
theorem C10_optimized_url_idempotent (url : List Char) :
    get_wordpress_optimized_url (get_wordpress_optimized_url url) =
      get_wordpress_optimized_url url := by
  by_cases hd : hasDimSuffix url = true
  · have hfu : get_wordpress_optimized_url url = url := by
      simp [get_wordpress_optimized_url, hd]
    rw [hfu, hfu]
  · rcases hsplit : splitLastDot url with _ | be
    · have hfu : get_wordpress_optimized_url url = url := by
        simp [get_wordpress_optimized_url, hd, hsplit]
      rw [hfu, hfu]
    · obtain ⟨b, e⟩ := be
      by_cases hext : lowerL e ∈ EXTS
      · have hfu : get_wordpress_optimized_url url = b ++ dimToken ++ e := by
          simp [get_wordpress_optimized_url, hd, hsplit, hext]
        rw [hfu]
        have hdot : '.' ∉ e := (splitLastDot_sound url b e hsplit).2
        have hsized : sizedSpec (b ++ dimToken ++ e) := by
          refine ⟨b, ['1', '0', '7', '0'], 'x', ['1', '5', '3', '6'], e,
            by simp [dimToken], by decide, by decide, by decide, by decide,
            Or.inl rfl, hext⟩
        have hd2 : hasDimSuffix (b ++ dimToken ++ e) = true :=
          (hasDimSuffix_iff _).mpr hsized
        have hd2' : hasDimSuffix (b ++ (dimToken ++ e)) = true := by
          simpa [List.append_assoc] using hd2
        simp [get_wordpress_optimized_url, hd2, hd2']
      · have hfu : get_wordpress_optimized_url url = url := by
          simp [get_wordpress_optimized_url, hd, hsplit, hext]
        rw [hfu, hfu]

/-- Claim C5: when both the derived optimized URL and the original URL fail
to fetch (for any reason, timeouts and decode failures included), the
resolver returns the solid-colour placeholder of exactly the optimized target
dimensions 1070 by 1536 instead of propagating an error. -/
theorem C5_download_image_placeholder (fetch : String → Option PILImage) (url : String)
    (hopt : fetch (get_wordpress_optimized_urlS url) = none)
    (horig : fetch url = none) :
    download_image fetch url = placeholderImage ∧
    (download_image fetch url).width = 1070 ∧
    (download_image fetch url).height = 1536 ∧
    (download_image fetch url).mode = "RGB" ∧
    (download_image fetch url).fill = "white" := by
  have h : download_image fetch url = placeholderImage := by
    simp [download_image, tryUrls, hopt, horig]
  rw [h]
  exact ⟨rfl, rfl, rfl, rfl, rfl⟩

/-- Witness for C5: a fetch function that always fails yields the 1070 by
1536 placeholder. -/
theorem C5_download_image_placeholder_witness :
    download_image (fun _ => none) "http://example.com/a.jpg" = placeholderImage ∧
    (download_image (fun _ => none) "http://example.com/a.jpg").width = 1070 ∧
    (download_image (fun _ => none) "http://example.com/a.jpg").height = 1536 ∧
    (download_image (fun _ => none) "http://example.com/a.jpg").mode = "RGB" ∧
    (download_image (fun _ => none) "http://example.com/a.jpg").fill = "white" :=
  C5_download_image_placeholder (fun _ => none) "http://example.com/a.jpg" rfl rfl

/-- Claim C6: the prefetch map has one entry per distinct non-empty thumbnail
URL of the job (no URL is resolved twice), its key set is exactly that
deduplicated set, and every key is bound to the resolver's image for it
(a real image or the placeholder). -/
theorem C6_prefetch_images (fetch : String → Option PILImage) (products : List Product) :
    ((_prefetch_images fetch products).map Prod.fst).Nodup ∧
    (∀ u, u ∈ (_prefetch_images fetch products).map Prod.fst ↔
      (u ≠ "" ∧ ∃ p ∈ products, p.thumbnail_url = u)) ∧
    (∀ u img, (u, img) ∈ _prefetch_images fetch products →
      img = download_image fetch u ∧
      (img = placeholderImage ∨
        ∃ atturl, atturl ∈ [get_wordpress_optimized_urlS u, u] ∧ fetch atturl = some img)) := by
  have hkeys : (_prefetch_images fetch products).map Prod.fst = uniqueThumbnailUrls products := by
    unfold _prefetch_images
    rw [List.map_map]
    have hcomp : (Prod.fst ∘ fun u => (u, download_image fetch u)) = @id String := rfl
    rw [hcomp, List.map_id]
  refine ⟨?_, ?_, ?_⟩
  · rw [hkeys]
    unfold uniqueThumbnailUrls
    exact List.nodup_dedup _
  · intro u
    rw [hkeys]
    unfold uniqueThumbnailUrls
    rw [List.mem_dedup, List.mem_filter]
    simp only [List.mem_map, decide_eq_true_eq]
    constructor
    · rintro ⟨⟨p, hp, hpu⟩, hne⟩
      exact ⟨hne, p, hp, hpu⟩
    · rintro ⟨hne, p, hp, hpu⟩
      exact ⟨⟨p, hp, hpu⟩, hne⟩
  · intro u img hmem
    unfold _prefetch_images at hmem
    obtain ⟨a, _, heq⟩ := List.mem_map.mp hmem
    have hau : a = u := congrArg Prod.fst heq
    have haimg : download_image fetch a = img := congrArg Prod.snd heq
    subst hau
    refine ⟨haimg.symm, ?_⟩
    rcases hopt : fetch (get_wordpress_optimized_urlS a) with _ | i
    · rcases horig : fetch a with _ | i
      · left
        rw [← haimg]
        simp [download_image, tryUrls, hopt, horig]
      · right
        have himg : img = i := by
          rw [← haimg]; simp [download_image, tryUrls, hopt, horig]
        exact ⟨a, by simp, by rw [horig, himg]⟩
    · right
      have himg : img = i := by
        rw [← haimg]; simp [download_image, tryUrls, hopt]
      exact ⟨get_wordpress_optimized_urlS a, by simp, by rw [hopt, himg]⟩

/-- Witness for C6: on `sampleProducts` with an always-failing fetch, "u1" is
a key of the prefetch map and its entry is the resolver's output. -/
theorem C6_prefetch_images_witness :
    (("u1" : String) ∈ (_prefetch_images (fun _ => none) sampleProducts).map Prod.fst) ∧
    placeholderImage = download_image (fun _ => none) "u1" := by
  constructor
  · exact ((C6_prefetch_images (fun _ => none) sampleProducts).2.1 "u1").mpr
      (by refine ⟨by decide, sampleProducts[0], by decide, rfl⟩)
  · exact ((C6_prefetch_images (fun _ => none) sampleProducts).2.2 "u1" placeholderImage
      (by decide)).1

/-- Claim C4: product `i` is drawn at grid row `(i mod 6) div 2`, column
`(i mod 6) mod 2`, a new page starts exactly at the indices divisible by 6
other than 0, and 13 products produce 3 pages holding 6, 6 and 1 products
with breaks at products 6 and 12. -/
theorem C4_grid_layout :
    (∀ n i, i < n →
      (productPlacements n)[i]? =
        some (decide (6 ∣ i ∧ i ≠ 0), (i % 6) / 2, (i % 6) % 2)) ∧
    pageCount 13 = 3 ∧ pageSizes 13 = [6, 6, 1] ∧ pageBreakIndices 13 = [6, 12] := by
  refine ⟨?_, by decide, by decide, by decide⟩
  intro n i h
  unfold productPlacements
  rw [List.getElem?_map, List.getElem?_range h]
  have hdec : decide (i % 6 = 0) = decide (6 ∣ i) :=
    decide_eq_decide.mpr Nat.dvd_iff_mod_eq_zero.symm
  simp [hdec]

/-- Witness for C4 at 13 products, product index 7. -/
theorem C4_grid_layout_witness :
    (productPlacements 13)[7]? =
      some (decide (6 ∣ 7 ∧ 7 ≠ 0), (7 % 6) / 2, (7 % 6) % 2) :=
  C4_grid_layout.1 13 7 (by decide)

theorem lookupA_cons_self {β : Type} (l : List (String × β)) (k : String) (v : β) :
    lookupA ((k, v) :: l) k = some v := by
  simp [lookupA, List.find?]

theorem eraseA_cons_self {β : Type} (l : List (String × β)) (k : String) (v : β) :
    eraseA ((k, v) :: l) k = l := by
  simp [eraseA, List.eraseP_cons_of_pos]

theorem lookupA_eq_none_of_not_mem {β : Type} (l : List (String × β)) (k : String)
    (h : k ∉ l.map Prod.fst) : lookupA l k = none := by
  unfold lookupA
  rw [List.find?_eq_none.mpr]
  · rfl
  · intro p hp
    simp only [beq_iff_eq]
    intro hpk
    exact h (List.mem_map.mpr ⟨p, hp, hpk⟩)

/-- Claim C3: after storing rendered bytes under a fresh token, retrieving
with that token returns exactly those bytes and deletes the record, so any
second retrieval that resolves to the same token is a not-found outcome; a
retrieval whose session token is unknown to the file store, or whose session
key is unbound, is also a not-found outcome rather than an error. -/
theorem C3_pdf_store_take_once (st : StoreState) (key tok : String) (content : List Nat)
    (hfresh : tok ∉ st.files.map Prod.fst) :
    ((download_pdf (put_pdf st key tok content) key).1 = some content ∧
      ∀ k2, lookupA (download_pdf (put_pdf st key tok content) key).2.session k2 = some tok →
        (download_pdf (download_pdf (put_pdf st key tok content) key).2 k2).1 = none) ∧
    (∀ (s : StoreState) (k t : String),
      lookupA s.session k = some t → t ∉ s.files.map Prod.fst →
      (download_pdf s k).1 = none) ∧
    (∀ (s : StoreState) (k : String),
      lookupA s.session k = none → (download_pdf s k).1 = none) := by
  have hunknown : ∀ (s : StoreState) (k t : String),
      lookupA s.session k = some t → t ∉ s.files.map Prod.fst →
      (download_pdf s k).1 = none := by
    intro s k t hk ht
    have hnone := lookupA_eq_none_of_not_mem s.files t ht
    unfold download_pdf
    simp [hk, hnone]
  refine ⟨⟨?_, ?_⟩, hunknown, ?_⟩
  · unfold download_pdf put_pdf
    simp [lookupA_cons_self]
  · intro k2 hk2
    have hst2 : (download_pdf (put_pdf st key tok content) key).2 =
        { files := st.files, session := st.session } := by
      unfold download_pdf put_pdf
      simp [lookupA_cons_self, eraseA_cons_self]
    rw [hst2] at hk2 ⊢
    exact hunknown _ k2 tok hk2 hfresh
  · intro s k hk
    unfold download_pdf
    simp [hk]

/-- Witness for C3: put bytes under fresh token "t", take them, then any
retrieval resolving to "t" again (here via the pre-existing session binding
of key "j") is not-found. -/
theorem C3_pdf_store_take_once_witness :
    (download_pdf (put_pdf ⟨[], [("j", "t")]⟩ "k" "t" [1, 2]) "k").1 = some [1, 2] ∧
    (download_pdf (download_pdf (put_pdf ⟨[], [("j", "t")]⟩ "k" "t" [1, 2]) "k").2 "j").1 =
      none := by
  have h := C3_pdf_store_take_once ⟨[], [("j", "t")]⟩ "k" "t" [1, 2] (by decide)
  exact ⟨h.1.1, h.1.2 "j" (by decide)⟩

theorem mem_of_getElemOpt {α : Type} (l : List α) (i : Nat) (a : α)
    (h : l[i]? = some a) : a ∈ l := by
  induction l generalizing i with
  | nil => simp at h
  | cons c cs ih =>
    cases i with
    | zero =>
      simp only [List.getElem?_cons_zero, Option.some.injEq] at h
      subst h; exact List.mem_cons_self _ _
    | succ j =>
      simp only [List.getElem?_cons_succ] at h
      exact List.mem_cons_of_mem _ (ih j h)

theorem countP_mono_set {α : Type} (p : α → Bool) (l : List α) (i : Nat) (a old : α)
    (hold : l[i]? = some old) (himp : p old = true → p a = true) :
    l.countP p ≤ (l.set i a).countP p := by
  induction l generalizing i with
  | nil => simp at hold
  | cons c cs ih =>
    cases i with
    | zero =>
      simp only [List.getElem?_cons_zero, Option.some.injEq] at hold
      subst hold
      simp only [List.set]
      rw [List.countP_cons, List.countP_cons]
      by_cases hc : p c = true
      · rw [if_pos hc, if_pos (himp hc)]
      · rw [if_neg hc]
        split_ifs <;> omega
    | succ j =>
      simp only [List.getElem?_cons_succ] at hold
      simp only [List.set]
      rw [List.countP_cons, List.countP_cons]
      exact Nat.add_le_add_right (ih j hold) _

theorem countP_set_incr {α : Type} (p : α → Bool) (l : List α) (i : Nat) (a old : α)
    (hold : l[i]? = some old) (hpold : p old = false) (hpa : p a = true) :
    (l.set i a).countP p = l.countP p + 1 := by
  induction l generalizing i with
  | nil => simp at hold
  | cons c cs ih =>
    cases i with
    | zero =>
      simp only [List.getElem?_cons_zero, Option.some.injEq] at hold
      subst hold
      simp [List.set, List.countP_cons, hpa, hpold]
    | succ j =>
      simp only [List.getElem?_cons_succ] at hold
      simp only [List.set]
      rw [List.countP_cons, List.countP_cons, ih j hold]
      omega

theorem cacheStep_inv (src : Nat) (s : CacheState) (i : Nat) (h : CacheInv src s) :
    CacheInv src (cacheStep src s i) := by
  obtain ⟨hc, hcnt, hth, hcount⟩ := h
  rcases hti : s.threads[i]? with _ | t
  · rw [show cacheStep src s i = s by simp [cacheStep, hti]]
    exact ⟨hc, hcnt, hth, hcount⟩
  · by_cases h0 : t.pc = 0
    · rcases hcache : s.cache with _ | v
      · have hstep : cacheStep src s i =
            { s with threads := s.threads.set i { pc := 1, res := t.res } } := by
          simp [cacheStep, hti, h0, hcache]
        rw [hstep]
        refine ⟨hc, hcnt, ?_, ?_⟩
        · intro t' ht' h2
          rcases List.mem_or_eq_of_mem_set ht' with hmem | heq
          · exact hth t' hmem h2
          · subst heq; simp at h2
        · exact le_trans hcount
            (countP_mono_set (fun t => decide (2 ≤ t.pc)) s.threads i
              { pc := 1, res := t.res } t hti
              (by intro hp; simp [h0] at hp))
      · have hveq : v = src := by
          rcases hc with hnone | hsome
          · rw [hcache] at hnone; exact absurd hnone (by simp)
          · rw [hcache] at hsome
            exact Option.some.inj hsome
        have hstep : cacheStep src s i =
            { s with threads := s.threads.set i { pc := 3, res := some v } } := by
          simp [cacheStep, hti, h0, hcache]
        rw [hstep]
        have hcnt1 : 1 ≤ s.count := hcnt (by rw [hcache, hveq])
        refine ⟨hc, hcnt, ?_, ?_⟩
        · intro t' ht' h2
          rcases List.mem_or_eq_of_mem_set ht' with hmem | heq
          · exact hth t' hmem h2
          · subst heq; exact ⟨by simp [hveq], hcnt1⟩
        · exact le_trans hcount
            (countP_mono_set (fun t => decide (2 ≤ t.pc)) s.threads i
              { pc := 3, res := some v } t hti
              (fun _ => by show decide (2 ≤ (3 : Nat)) = true; rfl))
    · by_cases h1 : t.pc = 1
      · have hstep : cacheStep src s i =
            { cache := s.cache, count := s.count + 1,
              threads := s.threads.set i { pc := 2, res := some src } } := by
          simp [cacheStep, hti, h0, h1]
        rw [hstep]
        refine ⟨hc, ?_, ?_, ?_⟩
        · intro _
          show 1 ≤ s.count + 1
          omega
        · intro t' ht' h2
          rcases List.mem_or_eq_of_mem_set ht' with hmem | heq
          · obtain ⟨hres, hc1⟩ := hth t' hmem h2
            exact ⟨hres, by show 1 ≤ s.count + 1; omega⟩
          · subst heq
            exact ⟨rfl, by show 1 ≤ s.count + 1; omega⟩
        · have hincr := countP_set_incr (fun t => decide (2 ≤ t.pc)) s.threads i
            { pc := 2, res := some src } t hti
            (by show decide (2 ≤ t.pc) = false; rw [h1]; rfl)
            (by show decide (2 ≤ (2 : Nat)) = true; rfl)
          show s.count + 1 ≤
            List.countP (fun t => decide (2 ≤ t.pc)) (s.threads.set i { pc := 2, res := some src })
          rw [hincr]
          omega
      · by_cases h2 : t.pc = 2
        · have htm : t ∈ s.threads := mem_of_getElemOpt _ _ _ hti
          obtain ⟨hres, hc1⟩ := hth t htm (by omega)
          have hstep : cacheStep src s i =
              { cache := some src, count := s.count,
                threads := s.threads.set i { pc := 3, res := t.res } } := by
            simp [cacheStep, hti, h0, h1, h2]
          rw [hstep]
          refine ⟨Or.inr rfl, fun _ => hc1, ?_, ?_⟩
          · intro t' ht' h2le
            rcases List.mem_or_eq_of_mem_set ht' with hmem | heq
            · exact hth t' hmem h2le
            · subst heq; exact ⟨hres, hc1⟩
          · exact le_trans hcount
              (countP_mono_set (fun t => decide (2 ≤ t.pc)) s.threads i
                { pc := 3, res := t.res } t hti
                (fun _ => by show decide (2 ≤ (3 : Nat)) = true; rfl))
        · have hstep : cacheStep src s i = s := by
            simp [cacheStep, hti, h0, h1, h2]
          rw [hstep]
          exact ⟨hc, hcnt, hth, hcount⟩

theorem cacheStep_length (src : Nat) (s : CacheState) (i : Nat) :
    (cacheStep src s i).threads.length = s.threads.length := by
  rcases hti : s.threads[i]? with _ | t
  · simp [cacheStep, hti]
  · by_cases h0 : t.pc = 0
    · rcases hcache : s.cache with _ | v <;>
        simp [cacheStep, hti, h0, hcache, List.length_set]
    · by_cases h1 : t.pc = 1
      · simp [cacheStep, hti, h0, h1, List.length_set]
      · by_cases h2 : t.pc = 2
        · simp [cacheStep, hti, h0, h1, h2, List.length_set]
        · simp [cacheStep, hti, h0, h1, h2]

theorem cacheRun_inv (src : Nat) (sched : List Nat) (s : CacheState) (h : CacheInv src s) :
    CacheInv src (cacheRun src sched s) := by
  induction sched generalizing s with
  | nil => exact h
  | cons a rest ih =>
    rw [cacheRun, List.foldl_cons]
    exact ih _ (cacheStep_inv src s a h)

theorem cacheRun_length (src : Nat) (sched : List Nat) (s : CacheState) :
    (cacheRun src sched s).threads.length = s.threads.length := by
  induction sched generalizing s with
  | nil => rfl
  | cons a rest ih =>
    rw [cacheRun, List.foldl_cons]
    exact (ih (cacheStep src s a)).trans (cacheStep_length src s a)

theorem cacheInit_inv (src m : Nat) : CacheInv src (cacheInit m) := by
  refine ⟨Or.inl rfl, ?_, ?_, ?_⟩
  · intro h; exact absurd h (by simp [cacheInit])
  · intro t ht h2
    have heq := List.eq_of_mem_replicate ht
    rw [heq] at h2
    exact absurd h2 (by decide)
  · simp [cacheInit]

/-- Claim C2 counterexample: with two concurrent get calls on an empty cache,
the interleaving read-read-fetch-set-fetch-set makes the external source be
fetched twice, not exactly once, even though both callers complete and both
receive the fetched result. -/
theorem C2_single_flight_counterexample :
    (cacheRun 5 [0, 1, 0, 0, 1, 1] (cacheInit 2)).count = 2 ∧
    (∀ t ∈ (cacheRun 5 [0, 1, 0, 0, 1, 1] (cacheInit 2)).threads,
      t.pc = 3 ∧ t.res = some 5) ∧
    (2 : Nat) ≠ 1 := by decide

/-- Claim C2 (amended): with `m ≥ 1` concurrent get calls arriving on an
empty or expired cache, any complete interleaving performs at least one and
at most `m` external fetches (not necessarily exactly one: the source reads
the cache and fetches without a lock), and every caller receives the source's
result. -/
theorem C2_cache_fetch_bounds (m src : Nat) (sched : List Nat) (hm : 1 ≤ m)
    (hdone : ∀ t ∈ (cacheRun src sched (cacheInit m)).threads, t.pc = 3) :
    1 ≤ (cacheRun src sched (cacheInit m)).count ∧
    (cacheRun src sched (cacheInit m)).count ≤ m ∧
    (∀ t ∈ (cacheRun src sched (cacheInit m)).threads, t.res = some src) := by
  obtain ⟨hc, hcnt, hth, hcount⟩ := cacheRun_inv src sched _ (cacheInit_inv src m)
  have hlen : (cacheRun src sched (cacheInit m)).threads.length = m := by
    rw [cacheRun_length]; simp [cacheInit]
  have hne : (cacheRun src sched (cacheInit m)).threads ≠ [] := by
    intro h0
    rw [h0] at hlen
    simp at hlen
    omega
  obtain ⟨t0, ht0⟩ := List.exists_mem_of_ne_nil _ hne
  refine ⟨(hth t0 ht0 (by simp [hdone t0 ht0])).2, ?_, ?_⟩
  · calc (cacheRun src sched (cacheInit m)).count
        ≤ _ := hcount
      _ ≤ (cacheRun src sched (cacheInit m)).threads.length := List.countP_le_length _
      _ = m := hlen
  · intro t ht
    exact (hth t ht (by simp [hdone t ht])).1

/-- Witness for the amended C2: a single caller running to completion
performs exactly one fetch and receives its result. -/
theorem C2_cache_fetch_bounds_witness :
    1 ≤ (cacheRun 7 [0, 0, 0] (cacheInit 1)).count ∧
    (cacheRun 7 [0, 0, 0] (cacheInit 1)).count ≤ 1 ∧
    (∀ t ∈ (cacheRun 7 [0, 0, 0] (cacheInit 1)).threads, t.res = some 7) :=
  C2_cache_fetch_bounds 1 7 [0, 0, 0] (by decide) (by decide)
